import Mathlib

/-!
Verification of the quartz_updater synchronization service.

The definitions below embed the TypeScript source shallowly:
- `src/storage.ts`: the manifest cache, the diff (`getPermittedChanges`),
  session storage and `applyUpdate`;
- `src/routes.ts`: the `request-update` and `update-batch` handlers.

JavaScript `Map` objects (insertion-ordered, unique keys) are embedded as
association lists with `mapGet` / `mapInsert` / `mapHas` / `mapDelete`.
The Node filesystem is embedded as a finite map from path to content plus a
set of faulted paths standing for I/O errors; `fs.unlink` on a missing file
raises `ENOENT`, per Node semantics. Asynchronous handlers are embedded as
state-passing functions; the per-path applications that run under
`Promise.all` are sequenced left to right (each result position still
corresponds to its submitted update, as `Promise.all` preserves order).
-/

namespace QuartzUpdater

/-- One entry of a manifest: a relative path and a content hash (`types.ts`). -/
structure ManifestEntry where
  path : String
  hash : String
deriving DecidableEq, Repr

/-- A manifest is a list of entries (`Manifest` in `types.ts`). -/
abbrev Manifest := List ManifestEntry

/-- The discriminant of a permitted change. -/
inductive ChangeType where
  | create
  | update
  | delete
deriving DecidableEq, Repr

/-- A change the server authorizes (`PermittedChange` in `types.ts`). -/
structure PermittedChange where
  type : ChangeType
  path : String
deriving DecidableEq, Repr

/-- A caller-submitted update. The discriminant is kept as a raw string
because `applyUpdate` switches on it and has a `default` branch for
unrecognized values. -/
structure Update where
  type : String
  path : String
  content : String
deriving DecidableEq, Repr

/-- Outcome of applying one update (`'success' | 'failure'`). -/
inductive ApplyStatus where
  | success
  | failure
deriving DecidableEq, Repr

/-- One per-path result of `applyUpdate` / the update-batch handler. -/
structure ApplyResult where
  path : String
  status : ApplyStatus
deriving DecidableEq, Repr

/-! ### JavaScript `Map` as an association list -/

/-- `Map.get`: the value stored at a key, if any. -/
def mapGet {α : Type} : List (String × α) → String → Option α
  | [], _ => none
  | (k, v) :: rest, key => if k = key then some v else mapGet rest key

/-- `Map.set`: replace the value at an existing key in place, else append. -/
def mapInsert {α : Type} : List (String × α) → String → α → List (String × α)
  | [], key, v => [(key, v)]
  | (k, w) :: rest, key, v =>
      if k = key then (key, v) :: rest else (k, w) :: mapInsert rest key v

/-- `Map.has`: whether a key is present. -/
def mapHas {α : Type} (m : List (String × α)) (key : String) : Bool :=
  m.any (fun pr => pr.1 = key)

/-- `Map.delete`: remove the entry at a key (a no-op when absent). -/
def mapDelete {α : Type} (m : List (String × α)) (key : String) : List (String × α) :=
  m.filter (fun pr => pr.1 ≠ key)

/-- JavaScript truthiness of a `string | undefined` value:
`undefined` and the empty string are falsy. -/
def jsTruthy : Option String → Bool
  | none => false
  | some s => s ≠ ""

/-! ### ContentHasher and filesystem model -/

/-- Stands in for the SHA-256 hex digest of `crypto` (`hashContent` in
`storage.ts`); the digest of a real hash is never the empty string, which
the stand-in preserves. -/
def hashContent (content : String) : String :=
  "sha256:" ++ content

/-- The content directory: a map from relative path to file content, plus
the set of paths on which the next filesystem operation raises an I/O
error (permission problems and the like). -/
structure FsState where
  files : List (String × String)
  faults : List String
deriving DecidableEq, Repr

/-- `fs.writeFile` (after `fs.mkdir` of the parent, which always succeeds
here): overwrite or create the file, unless the path is faulted. -/
def writeFile (fs : FsState) (p content : String) : Except String FsState :=
  if p ∈ fs.faults then Except.error "EIO"
  else Except.ok ⟨mapInsert fs.files p content, fs.faults⟩

/-- `fs.unlink`: remove the file; raises `ENOENT` when the file does not
exist (Node semantics), or an I/O error when the path is faulted. -/
def unlink (fs : FsState) (p : String) : Except String FsState :=
  if p ∈ fs.faults then Except.error "EIO"
  else if mapHas fs.files p then Except.ok ⟨mapDelete fs.files p, fs.faults⟩
  else Except.error "ENOENT"

/-! ### storage.ts -/

/-- First entry of a manifest at a path, if any (`Array.find` by path). -/
def manifestFind : Manifest → String → Option String
  | [], _ => none
  | e :: rest, p => if e.path = p then some e.hash else manifestFind rest p

/-- `new Map(manifest.map(file => [file.path, file.hash]))`: later entries
for a duplicate path overwrite the stored value but keep the first
occurrence's position. -/
def toMap (m : Manifest) : List (String × String) :=
  m.foldl (fun acc e => mapInsert acc e.path e.hash) []

/-- `initializeManifestCache` (`storage.ts:33`): rebuild the cache from the
content directory listing. The `catch` branch only logs, so on a read
error the previous cache value is kept and no error reaches the caller. -/
def initializeManifestCache (manifestCache : Manifest)
    (contentDir : Except String (List (String × String))) : Manifest :=
  match contentDir with
  | Except.ok files => files.map (fun file => ⟨file.1, hashContent file.2⟩)
  | Except.error _ => manifestCache

/-- `getPermittedChanges` (`storage.ts:50`): diff the client manifest
against the server manifest. Note the `if (serverHash)` truthiness test on
the looked-up server hash. -/
def getPermittedChanges (serverManifest clientManifest : Manifest) :
    List PermittedChange :=
  let serverManifestMap := toMap serverManifest
  let clientManifestMap := toMap clientManifest
  let createUpdates := clientManifestMap.filterMap (fun entry =>
    let serverHash := mapGet serverManifestMap entry.1
    if jsTruthy serverHash then
      if serverHash ≠ some entry.2 then some ⟨ChangeType.update, entry.1⟩ else none
    else some ⟨ChangeType.create, entry.1⟩)
  let deletions := serverManifestMap.filterMap (fun entry =>
    if mapHas clientManifestMap entry.1 then none
    else some ⟨ChangeType.delete, entry.1⟩)
  createUpdates ++ deletions

/-- An update session (`updateSession` in `types.ts`); the timer handle is
not part of the model — an expired session is simply one that its timeout
callback has already removed from the store. -/
structure Session where
  id : String
  permittedChanges : List PermittedChange
deriving DecidableEq, Repr

/-- The session store keyed by session id (`sessionStorage` in `storage.ts`). -/
abbrev SessionStore := List (String × Session)

/-- `createUpdateSession` (`storage.ts:85`), with the generated id passed
in explicitly. -/
def createUpdateSession (store : SessionStore) (sessionId : String)
    (permittedChanges : List PermittedChange) : Session × SessionStore :=
  let session : Session := ⟨sessionId, permittedChanges⟩
  (session, mapInsert store sessionId session)

/-- `getUpdateSession` (`storage.ts:98`). -/
def getUpdateSession (store : SessionStore) (id : String) : Option Session :=
  mapGet store id

/-- `deleteUpdateSession` (`storage.ts:110`): remove the session if present
(the cleared timer is not modelled). -/
def deleteUpdateSession (store : SessionStore) (id : String) : SessionStore :=
  mapDelete store id

/-- Modelled from the spec: `getAllUpdateSessions` is imported by
`routes.ts` from the storage module but its definition is not among the
available sources; per the spec the SessionManager "tracks outstanding
sessions", so this returns every live session in the store. -/
def getAllUpdateSessions (store : SessionStore) : List Session :=
  store.map Prod.snd

/-- The manifest-cache mutation of `applyUpdate`'s create/update branch
(`storage.ts:140`): overwrite the hash at the first entry found for the
path, else push a new entry. -/
def manifestUpsert : Manifest → String → String → Manifest
  | [], p, h => [⟨p, h⟩]
  | e :: rest, p, h =>
      if e.path = p then ⟨e.path, h⟩ :: rest else e :: manifestUpsert rest p h

/-- The state `applyUpdate` reads and writes: the manifest cache and the
content directory. -/
structure ApplyState where
  manifestCache : Manifest
  fs : FsState
deriving DecidableEq, Repr

/-- `applyUpdate` (`storage.ts:123`): perform the filesystem operation,
then mutate the manifest cache; any thrown filesystem error is caught and
reported as a failure for that path, leaving the state unchanged. -/
def applyUpdate (st : ApplyState) (u : Update) : ApplyResult × ApplyState :=
  if u.type = "create" ∨ u.type = "update" then
    match writeFile st.fs u.path u.content with
    | Except.error _ => (⟨u.path, ApplyStatus.failure⟩, st)
    | Except.ok fs' =>
        let newHash := hashContent u.content
        (⟨u.path, ApplyStatus.success⟩,
         ⟨manifestUpsert st.manifestCache u.path newHash, fs'⟩)
  else if u.type = "delete" then
    match unlink st.fs u.path with
    | Except.error _ => (⟨u.path, ApplyStatus.failure⟩, st)
    | Except.ok fs' =>
        (⟨u.path, ApplyStatus.success⟩,
         ⟨st.manifestCache.filter (fun f => f.path ≠ u.path), fs'⟩)
  else (⟨u.path, ApplyStatus.failure⟩, st)

/-! ### routes.ts -/

/-- Whole-service state: the storage module's mutable variables. -/
structure ServerState where
  manifestCache : Manifest
  fs : FsState
  sessions : SessionStore
deriving DecidableEq, Repr

/-- Response of the update-batch handler. -/
structure BatchResponse where
  statusCode : Nat
  results : List ApplyResult
deriving DecidableEq, Repr

/-- The per-update body of the update-batch handler (`routes.ts:110`): an
update whose path is not among the session's permitted paths is reported
as a failure without touching the state; otherwise it is handed to
`applyUpdate`. -/
def processUpdate (permittedPaths : List String) (st : ApplyState)
    (u : Update) : ApplyResult × ApplyState :=
  if u.path ∉ permittedPaths then (⟨u.path, ApplyStatus.failure⟩, st)
  else applyUpdate st u

/-- The `Promise.all` over the submitted updates (`routes.ts:109`),
sequenced left to right. -/
def processUpdates (permittedPaths : List String) :
    ApplyState → List Update → List ApplyResult × ApplyState
  | st, [] => ([], st)
  | st, u :: rest =>
      let r := processUpdate permittedPaths st u
      let rs := processUpdates permittedPaths r.2 rest
      (r.1 :: rs.1, rs.2)

/-- The update-batch handler (`routes.ts:79`). -/
def updateBatch (st : ServerState) (id : String) (updates : List Update) :
    BatchResponse × ServerState :=
  match getUpdateSession st.sessions id with
  | none =>
      (⟨400, updates.map (fun u => ⟨u.path, ApplyStatus.failure⟩)⟩, st)
  | some session =>
      let permittedPaths := session.permittedChanges.map PermittedChange.path
      let applied := processUpdates permittedPaths ⟨st.manifestCache, st.fs⟩ updates
      (⟨200, applied.1⟩,
       ⟨applied.2.manifestCache, applied.2.fs, deleteUpdateSession st.sessions id⟩)

/-- The batch-splitting loop of the request-update handler
(`routes.ts:55`): `permittedChanges.slice(i, i + BATCH_SIZE)` for
`i = 0, B, 2B, ...`, embedded with the list length as fuel (each
iteration with a positive batch size consumes at least one element). -/
def chunkGo (B : Nat) : Nat → List PermittedChange → List (List PermittedChange)
  | 0, _ => []
  | _, [] => []
  | fuel + 1, l => l.take B :: chunkGo B fuel (l.drop B)

/-- All batches carved from a change list. -/
def chunk (B : Nat) (l : List PermittedChange) : List (List PermittedChange) :=
  chunkGo B l.length l

/-- The session-creating loop of the request-update handler
(`routes.ts:54`), with generated ids supplied by `idGen`. -/
def createSessionsLoop (idGen : Nat → String) :
    Nat → SessionStore → List (List PermittedChange) → List Session × SessionStore
  | _, store, [] => ([], store)
  | i, store, batch :: rest =>
      let created := createUpdateSession store (idGen i) batch
      let next := createSessionsLoop idGen (i + 1) created.2 rest
      (created.1 :: next.1, next.2)

/-- Response of the request-update handler; `updateSessions` is `none` on
the 409/400 replies, which carry no body. -/
structure RequestUpdateResponse where
  statusCode : Nat
  updateSessions : Option (List Session)
deriving DecidableEq, Repr

/-- The request-update handler (`routes.ts:25`): reject with 409 while any
session is outstanding, with 400 when the manifest is missing; otherwise
diff, split into batches of at most `B`, and create one session per
batch. -/
def requestUpdate (B : Nat) (idGen : Nat → String) (st : ServerState)
    (body : Option Manifest) : RequestUpdateResponse × ServerState :=
  if (getAllUpdateSessions st.sessions).length > 0 then (⟨409, none⟩, st)
  else
    match body with
    | none => (⟨400, none⟩, st)
    | some clientManifest =>
        let permittedChanges := getPermittedChanges st.manifestCache clientManifest
        if permittedChanges.length = 0 then (⟨200, some []⟩, st)
        else
          let created := createSessionsLoop idGen 0 st.sessions (chunk B permittedChanges)
          (⟨200, some created.1⟩, ⟨st.manifestCache, st.fs, created.2⟩)

/-! ### The diff as the specification words it -/

/-- The diff written from the spec's words, for comparison with
`getPermittedChanges`: per client path — `create` when absent on the
server, `update` when present with a different fingerprint, nothing when
equal — in client order, followed by a `delete` per server-only path in
server order. -/
def specDiff (serverManifest clientManifest : Manifest) : List PermittedChange :=
  (clientManifest.filterMap (fun e =>
    match manifestFind serverManifest e.path with
    | none => some ⟨ChangeType.create, e.path⟩
    | some h => if h = e.hash then none else some ⟨ChangeType.update, e.path⟩))
  ++ serverManifest.filterMap (fun e =>
      if clientManifest.any (fun c => c.path = e.path) then none
      else some ⟨ChangeType.delete, e.path⟩)

/-- The client manifest after the deduplication `toMap` performs: one entry
per path, at the first occurrence's position, carrying the last
occurrence's hash. -/
def dedupByPath (m : Manifest) : Manifest :=
  (toMap m).map (fun pr => ⟨pr.1, pr.2⟩)

/-! ### Association-map lemmas -/

theorem mapGet_mapInsert {α : Type} (m : List (String × α)) (k key : String) (v : α) :
    mapGet (mapInsert m k v) key = if key = k then some v else mapGet m key := by
  induction m with
  | nil =>
      simp only [mapInsert, mapGet]
      by_cases h : key = k
      · simp [h]
      · rw [if_neg (fun hh => h hh.symm), if_neg h]
  | cons hd tl ih =>
      obtain ⟨k', v'⟩ := hd
      simp only [mapInsert]
      by_cases h : k' = k
      · subst h
        by_cases hk : key = k'
        · simp [mapGet, hk]
        · have hk' : ¬k' = key := fun hh => hk hh.symm
          simp [mapGet, hk, hk']
      · rw [if_neg h]
        by_cases hk : key = k'
        · have hkk : ¬key = k := fun hh => h (hk.symm.trans hh)
          simp [mapGet, hk.symm, hkk]
        · have hk' : ¬k' = key := fun hh => hk hh.symm
          simp only [mapGet, if_neg hk', ih]

theorem mapInsert_fresh {α : Type} (m : List (String × α)) (k : String) (v : α)
    (h : k ∉ m.map Prod.fst) : mapInsert m k v = m ++ [(k, v)] := by
  induction m with
  | nil => rfl
  | cons hd tl ih =>
      obtain ⟨k', v'⟩ := hd
      simp only [List.map_cons, List.mem_cons] at h
      push_neg at h
      have h1 : ¬k' = k := fun hh => h.1 hh.symm
      simp only [mapInsert, if_neg h1]
      rw [ih h.2]
      simp

theorem mapGet_mapDelete_self {α : Type} (m : List (String × α)) (key : String) :
    mapGet (mapDelete m key) key = none := by
  induction m with
  | nil => rfl
  | cons hd tl ih =>
      obtain ⟨k, v⟩ := hd
      by_cases h : k = key
      · simpa [mapDelete, h] using ih
      · simpa [mapDelete, List.filter_cons, h, mapGet] using ih

/-! ### toMap lemmas -/

theorem toMap_go_eq (l : Manifest) :
    ∀ acc : List (String × String),
      (acc.map Prod.fst ++ l.map ManifestEntry.path).Nodup →
      l.foldl (fun a e => mapInsert a e.path e.hash) acc
        = acc ++ l.map (fun e => (e.path, e.hash)) := by
  induction l with
  | nil => intro acc _; simp
  | cons e rest ih =>
      intro acc h
      have hfresh : e.path ∉ acc.map Prod.fst := by
        have hd := List.disjoint_of_nodup_append h
        intro hmem
        exact hd hmem (by simp)
      rw [List.foldl_cons, mapInsert_fresh acc e.path e.hash hfresh, ih]
      · simp
      · simpa [List.append_assoc] using h

theorem toMap_eq_pairs (m : Manifest) (h : (m.map ManifestEntry.path).Nodup) :
    toMap m = m.map (fun e => (e.path, e.hash)) := by
  simpa [toMap] using toMap_go_eq m [] (by simpa using h)

theorem mapGet_pairs (m : Manifest) (p : String) :
    mapGet (m.map (fun e => (e.path, e.hash))) p = manifestFind m p := by
  induction m with
  | nil => rfl
  | cons e rest ih =>
      by_cases h : e.path = p <;> simp [mapGet, manifestFind, h, ih]

theorem mapHas_pairs (m : Manifest) (p : String) :
    mapHas (m.map (fun e => (e.path, e.hash))) p = m.any (fun c => c.path = p) := by
  induction m with
  | nil => rfl
  | cons e rest ih =>
      unfold mapHas at ih ⊢
      simp only [List.map_cons, List.any_cons, ih]

theorem manifestFind_mem (m : Manifest) (p h : String)
    (hf : manifestFind m p = some h) : ∃ e ∈ m, e.path = p ∧ e.hash = h := by
  induction m with
  | nil => simp [manifestFind] at hf
  | cons e rest ih =>
      by_cases hp : e.path = p
      · refine ⟨e, by simp, hp, ?_⟩
        simp only [manifestFind, if_pos hp, Option.some.injEq] at hf
        exact hf
      · obtain ⟨e', he', h1, h2⟩ := ih (by simpa [manifestFind, hp] using hf)
        exact ⟨e', by simp [he'], h1, h2⟩

/-! ### C1 — diff correctness -/

/-- C1 (amended): provided every fingerprint in the server manifest is a
nonempty string — as the content hashes the hasher produces always are —
and each manifest lists each path at most once, `getPermittedChanges`
emits exactly what the claim describes: for each client path a `create`
when absent on the server, an `update` when present with a different
fingerprint, nothing when the fingerprints are equal, in client order,
followed by one `delete` per server-only path in server order, and no
other change (`specDiff` transcribes that wording). -/
theorem getPermittedChanges_correct (S C : Manifest)
    (hS : (S.map ManifestEntry.path).Nodup)
    (hC : (C.map ManifestEntry.path).Nodup)
    (hne : ∀ e ∈ S, e.hash ≠ "") :
    getPermittedChanges S C = specDiff S C := by
  simp only [getPermittedChanges, specDiff]
  rw [toMap_eq_pairs S hS, toMap_eq_pairs C hC]
  congr 1
  · rw [List.filterMap_map]
    apply List.filterMap_congr
    intro e he
    simp only [Function.comp_apply, mapGet_pairs]
    cases hf : manifestFind S e.path with
    | none => simp [jsTruthy]
    | some h =>
        obtain ⟨e', he', hp, hh⟩ := manifestFind_mem S e.path h hf
        have hne' : h ≠ "" := hh ▸ hne e' he'
        by_cases heq : h = e.hash
        · have hne2 : e.hash ≠ "" := heq ▸ hne'
          simp [jsTruthy, hne', hne2, heq]
        · simp [jsTruthy, hne', heq]
  · rw [List.filterMap_map]
    apply List.filterMap_congr
    intro e he
    simp only [Function.comp_apply, mapHas_pairs]

/-- C1, as frozen, fails on the code: with the (unreachable through the
hasher, but not excluded by the claim) empty server fingerprint, the
`if (serverHash)` truthiness test makes the diff emit a `create` for a
path present on both sides with equal fingerprints, where the claim
demands no change (`specDiff` at the same input is empty). -/
theorem getPermittedChanges_truthiness_counterexample :
    getPermittedChanges [⟨"a.md", ""⟩] [⟨"a.md", ""⟩]
        = [⟨ChangeType.create, "a.md"⟩]
      ∧ specDiff [⟨"a.md", ""⟩] [⟨"a.md", ""⟩] = [] := by
  exact ⟨rfl, rfl⟩

/-- Witness for `getPermittedChanges_correct` at the spec's concrete
scenario: server `a.md:h1, b.md:h2` against client `a.md:h1, c.md:h3`. -/
theorem getPermittedChanges_correct_witness :
    getPermittedChanges [⟨"a.md", "h1"⟩, ⟨"b.md", "h2"⟩]
        [⟨"a.md", "h1"⟩, ⟨"c.md", "h3"⟩]
      = [⟨ChangeType.create, "c.md"⟩, ⟨ChangeType.delete, "b.md"⟩] := by
  rw [getPermittedChanges_correct _ _ (by decide) (by decide) (by decide)]
  rfl

/-! ### C2 — batch splitting -/

theorem chunkGo_nil (B fuel : Nat) : chunkGo B fuel [] = [] := by
  cases fuel <;> rfl

theorem chunkGo_fuel (B : Nat) (hB : 0 < B) :
    ∀ (n m : Nat) (l : List PermittedChange), l.length ≤ n → l.length ≤ m →
      chunkGo B n l = chunkGo B m l := by
  intro n
  induction n with
  | zero =>
      intro m l hn _
      have hl : l = [] := List.eq_nil_of_length_eq_zero (Nat.le_zero.mp hn)
      subst hl
      simp [chunkGo_nil]
  | succ n ih =>
      intro m l hn hm
      cases m with
      | zero =>
          have hl : l = [] := List.eq_nil_of_length_eq_zero (Nat.le_zero.mp hm)
          subst hl
          simp [chunkGo_nil]
      | succ m =>
          cases l with
          | nil => rfl
          | cons x xs =>
              simp only [List.length_cons] at hn hm
              simp only [chunkGo]
              congr 1
              apply ih
              · rw [List.length_drop, List.length_cons]
                omega
              · rw [List.length_drop, List.length_cons]
                omega

theorem chunk_cons (B : Nat) (hB : 0 < B) (x : PermittedChange)
    (xs : List PermittedChange) :
    chunk B (x :: xs) = (x :: xs).take B :: chunk B ((x :: xs).drop B) := by
  unfold chunk
  simp only [List.length_cons, chunkGo]
  congr 1
  apply chunkGo_fuel B hB
  · rw [List.length_drop, List.length_cons]
    omega
  · exact Nat.le_refl _

theorem chunk_flatten (B : Nat) (hB : 0 < B) :
    ∀ (n : Nat) (l : List PermittedChange), l.length ≤ n →
      (chunk B l).flatten = l := by
  intro n
  induction n with
  | zero =>
      intro l h
      have hl : l = [] := List.eq_nil_of_length_eq_zero (Nat.le_zero.mp h)
      subst hl
      rfl
  | succ n ih =>
      intro l h
      cases l with
      | nil => rfl
      | cons x xs =>
          rw [chunk_cons B hB, List.flatten_cons, ih]
          · exact List.take_append_drop B (x :: xs)
          · rw [List.length_drop, List.length_cons]
            simp only [List.length_cons] at h
            omega

theorem chunk_count (B : Nat) (hB : 0 < B) :
    ∀ (n : Nat) (l : List PermittedChange), l.length ≤ n →
      (chunk B l).length = (l.length + B - 1) / B := by
  intro n
  induction n with
  | zero =>
      intro l h
      have hl : l = [] := List.eq_nil_of_length_eq_zero (Nat.le_zero.mp h)
      subst hl
      simp only [chunk, chunkGo_nil, List.length_nil]
      exact (Nat.div_eq_of_lt (by omega)).symm
  | succ n ih =>
      intro l h
      cases l with
      | nil =>
          simp only [chunk, chunkGo_nil, List.length_nil]
          exact (Nat.div_eq_of_lt (by omega)).symm
      | cons x xs =>
          simp only [List.length_cons] at h
          rw [chunk_cons B hB, List.length_cons,
              ih _ (by rw [List.length_drop, List.length_cons]; omega)]
          rw [List.length_drop, List.length_cons]
          have hrw : xs.length + 1 + B - 1 = xs.length + B := by omega
          rw [hrw, Nat.add_div_right _ hB]
          have key : (xs.length + 1 - B + B - 1) / B = xs.length / B := by
            by_cases hbn : B ≤ xs.length + 1
            · congr 1
              omega
            · rw [Nat.div_eq_of_lt (by omega), Nat.div_eq_of_lt (by omega)]
          rw [key]

theorem chunk_sizes (B : Nat) (hB : 0 < B) :
    ∀ (n : Nat) (l : List PermittedChange), l.length ≤ n →
      ∀ s ∈ chunk B l, s.length ≤ B := by
  intro n
  induction n with
  | zero =>
      intro l h s hs
      have hl : l = [] := List.eq_nil_of_length_eq_zero (Nat.le_zero.mp h)
      subst hl
      simp [chunk, chunkGo_nil] at hs
  | succ n ih =>
      intro l h s hs
      cases l with
      | nil => simp [chunk, chunkGo_nil] at hs
      | cons x xs =>
          rw [chunk_cons B hB] at hs
          rcases List.mem_cons.mp hs with h1 | h1
          · subst h1
            exact List.length_take_le B (x :: xs)
          · refine ih _ ?_ s h1
            rw [List.length_drop, List.length_cons]
            simp only [List.length_cons] at h
            omega

theorem createSessionsLoop_batches (idGen : Nat → String) :
    ∀ (batches : List (List PermittedChange)) (i : Nat) (store : SessionStore),
      (createSessionsLoop idGen i store batches).1.map Session.permittedChanges
        = batches := by
  intro batches
  induction batches with
  | nil => intro i store; rfl
  | cons b rest ih =>
      intro i store
      simp [createSessionsLoop, createUpdateSession, ih]

/-- C2: with a positive batch size and no outstanding session, the
request-update handler answers with `ceil(N / B)` sessions of consecutive
permitted changes, each of size at most `B`; concatenating their change
lists in session order reproduces the diff's change list, so every change
appears in exactly one session. -/
theorem requestUpdate_batch_splitting (B : Nat) (idGen : Nat → String)
    (st : ServerState) (clientManifest : Manifest)
    (hB : 0 < B) (hidle : st.sessions = []) :
    ∃ sessions : List Session,
      ((requestUpdate B idGen st (some clientManifest)).1).updateSessions
          = some sessions ∧
      sessions.length
          = ((getPermittedChanges st.manifestCache clientManifest).length + B - 1)
              / B ∧
      (sessions.map Session.permittedChanges).flatten
          = getPermittedChanges st.manifestCache clientManifest ∧
      ∀ s ∈ sessions, s.permittedChanges.length ≤ B := by
  simp only [requestUpdate, getAllUpdateSessions, hidle, List.map_nil,
    List.length_nil, gt_iff_lt, Nat.lt_irrefl, if_false]
  by_cases hc : (getPermittedChanges st.manifestCache clientManifest).length = 0
  · refine ⟨[], ?_⟩
    have hnil : getPermittedChanges st.manifestCache clientManifest = [] :=
      List.eq_nil_of_length_eq_zero hc
    simp [hc, hnil]
    exact (Nat.div_eq_of_lt (by omega)).symm
  · refine ⟨(createSessionsLoop idGen 0 []
      (chunk B (getPermittedChanges st.manifestCache clientManifest))).1, ?_, ?_, ?_, ?_⟩
    · simp [hc]
    · have hmap := createSessionsLoop_batches idGen
        (chunk B (getPermittedChanges st.manifestCache clientManifest)) 0 []
      have hlen := congrArg List.length hmap
      rw [List.length_map] at hlen
      rw [hlen, chunk_count B hB _ _ (Nat.le_refl _)]
    · rw [createSessionsLoop_batches idGen _ 0 [],
        chunk_flatten B hB _ _ (Nat.le_refl _)]
    · intro s hs
      have hmem : s.permittedChanges
          ∈ (createSessionsLoop idGen 0 []
              (chunk B (getPermittedChanges st.manifestCache clientManifest))).1.map
              Session.permittedChanges :=
        List.mem_map_of_mem Session.permittedChanges hs
      rw [createSessionsLoop_batches idGen _ 0 []] at hmem
      exact chunk_sizes B hB _ _ (Nat.le_refl _) _ hmem

/-- Witness for `requestUpdate_batch_splitting`: four creates split with
batch size 3 into sessions of sizes 3 and 1. -/
theorem requestUpdate_batch_splitting_witness :
    0 < 3 ∧
    ∃ sessions : List Session,
      ((requestUpdate 3 (fun n => "s" ++ toString n)
          ⟨[], ⟨[], []⟩, []⟩
          (some [⟨"a", "h1"⟩, ⟨"b", "h2"⟩, ⟨"c", "h3"⟩, ⟨"d", "h4"⟩])).1).updateSessions
          = some sessions ∧
      sessions.length
          = ((getPermittedChanges []
              [⟨"a", "h1"⟩, ⟨"b", "h2"⟩, ⟨"c", "h3"⟩, ⟨"d", "h4"⟩]).length + 3 - 1)
              / 3 ∧
      (sessions.map Session.permittedChanges).flatten
          = getPermittedChanges []
              [⟨"a", "h1"⟩, ⟨"b", "h2"⟩, ⟨"c", "h3"⟩, ⟨"d", "h4"⟩] ∧
      ∀ s ∈ sessions, s.permittedChanges.length ≤ 3 :=
  ⟨by decide,
   requestUpdate_batch_splitting 3 (fun n => "s" ++ toString n)
     ⟨[], ⟨[], []⟩, []⟩ [⟨"a", "h1"⟩, ⟨"b", "h2"⟩, ⟨"c", "h3"⟩, ⟨"d", "h4"⟩]
     (by decide) rfl⟩

/-! ### C3 — session single-use -/

theorem updateBatch_unknown (st : ServerState) (id : String) (us : List Update)
    (h : getUpdateSession st.sessions id = none) :
    updateBatch st id us
      = (⟨400, us.map (fun u => ⟨u.path, ApplyStatus.failure⟩)⟩, st) := by
  simp only [updateBatch, h]

/-- C3: an update-batch request against an unknown (or already expired and
hence removed) session id gets a per-path all-failure response with
nothing applied; and after a batch against a valid session completes, the
session has been deleted, so a second request with the same id gets the
unknown-session all-failure response and changes nothing. -/
theorem updateBatch_session_single_use (st : ServerState) (id : String)
    (us1 us2 : List Update) :
    (getUpdateSession st.sessions id = none →
        updateBatch st id us1
          = (⟨400, us1.map (fun u => ⟨u.path, ApplyStatus.failure⟩)⟩, st)) ∧
    (getUpdateSession st.sessions id ≠ none →
        getUpdateSession ((updateBatch st id us1).2).sessions id = none ∧
        updateBatch (updateBatch st id us1).2 id us2
          = (⟨400, us2.map (fun u => ⟨u.path, ApplyStatus.failure⟩)⟩,
             (updateBatch st id us1).2)) := by
  constructor
  · intro h
    exact updateBatch_unknown st id us1 h
  · intro h
    cases hs : getUpdateSession st.sessions id with
    | none => exact absurd hs h
    | some sess =>
        have hdel : getUpdateSession ((updateBatch st id us1).2).sessions id
            = none := by
          simp only [updateBatch, hs]
          simp [getUpdateSession, deleteUpdateSession, mapGet_mapDelete_self]
        exact ⟨hdel, updateBatch_unknown _ id us2 hdel⟩

/-- Witness for `updateBatch_session_single_use`: a store holding one
session for id `s1`; the second request with `s1` fails wholesale. -/
theorem updateBatch_session_single_use_witness :
    getUpdateSession
        [("s1", ⟨"s1", [⟨ChangeType.create, "a.md"⟩]⟩)] "s1" ≠ none ∧
    (getUpdateSession
        ((updateBatch ⟨[], ⟨[], []⟩, [("s1", ⟨"s1", [⟨ChangeType.create, "a.md"⟩]⟩)]⟩
            "s1" [⟨"create", "a.md", "x"⟩]).2).sessions "s1" = none ∧
     updateBatch
         (updateBatch ⟨[], ⟨[], []⟩, [("s1", ⟨"s1", [⟨ChangeType.create, "a.md"⟩]⟩)]⟩
             "s1" [⟨"create", "a.md", "x"⟩]).2
         "s1" [⟨"create", "a.md", "x"⟩]
       = (⟨400, ([⟨"create", "a.md", "x"⟩] : List Update).map
             (fun u => ⟨u.path, ApplyStatus.failure⟩)⟩,
          (updateBatch ⟨[], ⟨[], []⟩, [("s1", ⟨"s1", [⟨ChangeType.create, "a.md"⟩]⟩)]⟩
              "s1" [⟨"create", "a.md", "x"⟩]).2)) :=
  ⟨by decide,
   (updateBatch_session_single_use
       ⟨[], ⟨[], []⟩, [("s1", ⟨"s1", [⟨ChangeType.create, "a.md"⟩]⟩)]⟩
       "s1" [⟨"create", "a.md", "x"⟩] [⟨"create", "a.md", "x"⟩]).2 (by decide)⟩

/-! ### C4 — update validation -/

/-- C4, as frozen, fails on the code: the handler checks only the PATH of
each submitted update against the session's permitted changes, never the
KIND. Here the session permits only a `delete` of `a.md`, yet a submitted
`create` for `a.md` is applied: the response reports success and both the
filesystem and the manifest cache are mutated. -/
theorem updateBatch_kind_not_validated_counterexample :
    updateBatch ⟨[], ⟨[], []⟩, [("s1", ⟨"s1", [⟨ChangeType.delete, "a.md"⟩]⟩)]⟩
        "s1" [⟨"create", "a.md", "body"⟩]
      = (⟨200, [⟨"a.md", ApplyStatus.success⟩]⟩,
         ⟨[⟨"a.md", hashContent "body"⟩], ⟨[("a.md", "body")], []⟩, []⟩) := by
  rfl

/-- C4 (amended): validation is per path only: any update whose path is
not among the session's permitted changes' paths is reported as Failure
without being applied — no filesystem write or delete and no manifest
mutation occurs for it (the state is returned unchanged); the update's
kind is not checked. -/
theorem processUpdate_path_validation (permittedPaths : List String)
    (st : ApplyState) (u : Update) (h : u.path ∉ permittedPaths) :
    processUpdate permittedPaths st u = (⟨u.path, ApplyStatus.failure⟩, st) := by
  simp [processUpdate, h]

/-- Witness for `processUpdate_path_validation`: a create for `b.md`
against a session permitting only `a.md` fails and leaves the state
untouched. -/
theorem processUpdate_path_validation_witness :
    processUpdate ["a.md"] ⟨[], ⟨[], []⟩⟩ ⟨"create", "b.md", "x"⟩
      = (⟨"b.md", ApplyStatus.failure⟩, ⟨[], ⟨[], []⟩⟩) :=
  processUpdate_path_validation ["a.md"] ⟨[], ⟨[], []⟩⟩ ⟨"create", "b.md", "x"⟩
    (by decide)

/-! ### C5 — per-path isolation and result order -/

theorem applyUpdate_path (st : ApplyState) (u : Update) :
    ((applyUpdate st u).1).path = u.path := by
  unfold applyUpdate
  split
  · cases writeFile st.fs u.path u.content <;> rfl
  · split
    · cases unlink st.fs u.path <;> rfl
    · rfl

theorem processUpdate_path (permittedPaths : List String) (st : ApplyState)
    (u : Update) : ((processUpdate permittedPaths st u).1).path = u.path := by
  unfold processUpdate
  split
  · rfl
  · exact applyUpdate_path st u

theorem processUpdates_paths (permittedPaths : List String) :
    ∀ (us : List Update) (st : ApplyState),
      ((processUpdates permittedPaths st us).1).map ApplyResult.path
        = us.map Update.path := by
  intro us
  induction us with
  | nil => intro st; rfl
  | cons u rest ih =>
      intro st
      simp only [processUpdates, List.map_cons]
      rw [processUpdate_path, ih]

/-- C5: an update-batch request with N submitted updates returns exactly N
results, in submission order, the i-th result's path being the i-th
update's path (`Promise.all` preserves positions); this holds whatever the
individual outcomes are — a failure for one path never prevents the
remaining updates from being processed — and also on the unknown-session
reply. -/
theorem updateBatch_per_path_results (st : ServerState) (id : String)
    (updates : List Update) :
    ((updateBatch st id updates).1).results.map ApplyResult.path
        = updates.map Update.path ∧
    ((updateBatch st id updates).1).results.length = updates.length := by
  have hmap : ((updateBatch st id updates).1).results.map ApplyResult.path
      = updates.map Update.path := by
    cases hs : getUpdateSession st.sessions id with
    | none =>
        simp only [updateBatch, hs]
        rw [List.map_map]
        rfl
    | some sess => simp [updateBatch, hs, processUpdates_paths]
  refine ⟨hmap, ?_⟩
  have hlen := congrArg List.length hmap
  simpa using hlen

/-! ### C6 — admission control -/

/-- C6: a request-update call made while at least one session is
outstanding is answered 409 with no body, and the whole server state —
manifest cache, files, and session store — is returned unchanged: no diff
result is used and no session is created or modified. -/
theorem requestUpdate_admission_control (B : Nat) (idGen : Nat → String)
    (st : ServerState) (body : Option Manifest) (h : st.sessions ≠ []) :
    requestUpdate B idGen st body = (⟨409, none⟩, st) := by
  have hlen : 0 < (getAllUpdateSessions st.sessions).length := by
    simpa [getAllUpdateSessions] using List.length_pos.mpr h
  simp [requestUpdate, hlen]

/-- Witness for `requestUpdate_admission_control`: one outstanding session
makes the handler answer 409 and leave the state alone. -/
theorem requestUpdate_admission_control_witness :
    ([("s1", (⟨"s1", []⟩ : Session))] : SessionStore) ≠ [] ∧
    requestUpdate 10 (fun _ => "id") ⟨[], ⟨[], []⟩, [("s1", ⟨"s1", []⟩)]⟩
        (some [⟨"a", "h"⟩])
      = (⟨409, none⟩, ⟨[], ⟨[], []⟩, [("s1", ⟨"s1", []⟩)]⟩) :=
  ⟨by simp,
   requestUpdate_admission_control 10 (fun _ => "id")
     ⟨[], ⟨[], []⟩, [("s1", ⟨"s1", []⟩)]⟩ (some [⟨"a", "h"⟩]) (by simp)⟩

/-! ### C7 — delete of an absent path -/

/-- C7, as frozen, fails on the code: deleting a path whose file does not
exist reaches the end state "file absent", yet the outcome is Failure, not
Success — `fs.unlink` raises `ENOENT` on a missing file and the handler's
`catch` turns any thrown error into a failure result. -/
theorem applyUpdate_delete_absent_counterexample :
    applyUpdate ⟨[], ⟨[], []⟩⟩ ⟨"delete", "a.md", ""⟩
      = (⟨"a.md", ApplyStatus.failure⟩, ⟨[], ⟨[], []⟩⟩) := by
  rfl

/-- C7 (amended): a `delete` for a path whose file does not exist is
reported as Failure with the state unchanged, because the underlying
unlink treats the missing file as an error; Success is reported exactly
when the file existed and the filesystem operation succeeded, after which
the file is absent. -/
theorem applyUpdate_delete_semantics (st : ApplyState) (p c : String) :
    (mapHas st.fs.files p = false →
        applyUpdate st ⟨"delete", p, c⟩ = (⟨p, ApplyStatus.failure⟩, st)) ∧
    (mapHas st.fs.files p = true → p ∉ st.fs.faults →
        ((applyUpdate st ⟨"delete", p, c⟩).1 = ⟨p, ApplyStatus.success⟩ ∧
         mapGet ((applyUpdate st ⟨"delete", p, c⟩).2).fs.files p = none)) := by
  constructor
  · intro habs
    unfold applyUpdate
    dsimp only
    rw [if_neg (by decide), if_pos rfl]
    unfold unlink
    by_cases hf : p ∈ st.fs.faults
    · rw [if_pos hf]
    · rw [if_neg hf, if_neg (by simp [habs])]
  · intro hpres hf
    unfold applyUpdate
    dsimp only
    rw [if_neg (by decide), if_pos rfl]
    unfold unlink
    rw [if_neg hf, if_pos hpres]
    exact ⟨rfl, mapGet_mapDelete_self st.fs.files p⟩

/-- Witness for `applyUpdate_delete_semantics`: deleting the present
`b.md` succeeds and removes it; deleting the absent `c.md` fails. -/
theorem applyUpdate_delete_semantics_witness :
    ((applyUpdate ⟨[], ⟨[("b.md", "x")], []⟩⟩ ⟨"delete", "b.md", ""⟩).1
        = ⟨"b.md", ApplyStatus.success⟩ ∧
     mapGet ((applyUpdate ⟨[], ⟨[("b.md", "x")], []⟩⟩
         ⟨"delete", "b.md", ""⟩).2).fs.files "b.md" = none) ∧
    applyUpdate ⟨[], ⟨[("b.md", "x")], []⟩⟩ ⟨"delete", "c.md", ""⟩
      = (⟨"c.md", ApplyStatus.failure⟩, ⟨[], ⟨[("b.md", "x")], []⟩⟩) :=
  ⟨(applyUpdate_delete_semantics ⟨[], ⟨[("b.md", "x")], []⟩⟩ "b.md" "").2
      (by decide) (by decide),
   (applyUpdate_delete_semantics ⟨[], ⟨[("b.md", "x")], []⟩⟩ "c.md" "").1
      (by decide)⟩

/-! ### C8 — startup rebuild failure -/

/-- C8: the claim (and the spec) require a failed manifest rebuild to be
exposed as an error to the caller; the code instead catches the read
error, logs it, and returns normally with the cache left at its previous
(initially empty) value, so the service keeps serving sync requests
against an unknown manifest. This theorem evaluates the embedded
`initializeManifestCache` at a failing directory read: no error reaches
the caller (the function has no error channel at all) and the stale cache
is silently retained. -/
theorem initializeManifestCache_swallows_failure (manifestCache : Manifest)
    (e : String) :
    initializeManifestCache manifestCache (Except.error e) = manifestCache := by
  rfl

/-! ### C9 — manifest-store invariant -/

theorem manifestUpsert_paths (mc : Manifest) (p h : String) :
    (manifestUpsert mc p h).map ManifestEntry.path
      = if p ∈ mc.map ManifestEntry.path then mc.map ManifestEntry.path
        else mc.map ManifestEntry.path ++ [p] := by
  induction mc with
  | nil => simp [manifestUpsert]
  | cons e rest ih =>
      by_cases hp : e.path = p
      · simp [manifestUpsert, hp]
      · have hp' : ¬p = e.path := fun hh => hp hh.symm
        simp only [manifestUpsert, if_neg hp, List.map_cons, ih, List.mem_cons]
        by_cases hmem : p ∈ rest.map ManifestEntry.path
        · simp [hmem, hp']
        · simp [hmem, hp']

theorem manifestUpsert_nodup (mc : Manifest) (p h : String)
    (hn : (mc.map ManifestEntry.path).Nodup) :
    ((manifestUpsert mc p h).map ManifestEntry.path).Nodup := by
  rw [manifestUpsert_paths]
  by_cases hmem : p ∈ mc.map ManifestEntry.path
  · simpa [hmem] using hn
  · simp only [hmem, if_false]
    exact hn.append (List.nodup_singleton p)
      (List.disjoint_singleton.mpr hmem)

theorem manifestFind_manifestUpsert (mc : Manifest) (p h : String) :
    manifestFind (manifestUpsert mc p h) p = some h := by
  induction mc with
  | nil => simp [manifestUpsert, manifestFind]
  | cons e rest ih =>
      by_cases hp : e.path = p
      · simp [manifestUpsert, hp, manifestFind]
      · simp [manifestUpsert, hp, manifestFind, ih]

theorem manifestFind_filter_ne (mc : Manifest) (p : String) :
    manifestFind (mc.filter (fun f => f.path ≠ p)) p = none := by
  induction mc with
  | nil => rfl
  | cons e rest ih =>
      by_cases hp : e.path = p
      · simpa [List.filter_cons, hp] using ih
      · simpa [List.filter_cons, hp, manifestFind] using ih

theorem filter_paths_nodup (mc : Manifest) (p : String)
    (hn : (mc.map ManifestEntry.path).Nodup) :
    ((mc.filter (fun f => f.path ≠ p)).map ManifestEntry.path).Nodup :=
  hn.sublist ((List.filter_sublist mc).map ManifestEntry.path)

/-- C9: mutations of the manifest cache preserve the at-most-one-entry-
per-path invariant, and the fingerprint reflects the last successfully
applied write: after a successful create/update the entry at the path is
the hash of the content just written, after a successful delete no entry
for the path remains; rebuilding the cache from a directory listing
(whose file names are unique) also yields unique paths. -/
theorem manifestCache_invariant :
    (∀ (st : ApplyState) (u : Update),
        (st.manifestCache.map ManifestEntry.path).Nodup →
        (((applyUpdate st u).2).manifestCache.map ManifestEntry.path).Nodup) ∧
    (∀ (st : ApplyState) (u : Update),
        ((applyUpdate st u).1).status = ApplyStatus.success →
        (u.type = "create" ∨ u.type = "update") →
        manifestFind ((applyUpdate st u).2).manifestCache u.path
          = some (hashContent u.content)) ∧
    (∀ (st : ApplyState) (u : Update),
        ((applyUpdate st u).1).status = ApplyStatus.success →
        u.type = "delete" →
        manifestFind ((applyUpdate st u).2).manifestCache u.path = none) ∧
    (∀ (mc : Manifest) (files : List (String × String)),
        (files.map Prod.fst).Nodup →
        ((initializeManifestCache mc (Except.ok files)).map
            ManifestEntry.path).Nodup) := by
  refine ⟨?_, ?_, ?_, ?_⟩
  · intro st u hn
    unfold applyUpdate
    split
    · cases hw : writeFile st.fs u.path u.content with
      | error err => simpa using hn
      | ok fs' =>
          have hup := manifestUpsert_nodup st.manifestCache u.path (hashContent u.content) hn
          simpa using hup
    · split
      · cases hu : unlink st.fs u.path with
        | error err => simpa using hn
        | ok fs' => simpa using filter_paths_nodup st.manifestCache u.path hn
      · simpa using hn
  · intro st u hsucc htype
    unfold applyUpdate at hsucc ⊢
    rw [if_pos htype] at hsucc ⊢
    cases hw : writeFile st.fs u.path u.content with
    | error err => rw [hw] at hsucc; simp at hsucc
    | ok fs' =>
        exact manifestFind_manifestUpsert st.manifestCache u.path (hashContent u.content)
  · intro st u hsucc htype
    unfold applyUpdate at hsucc ⊢
    rw [htype] at hsucc ⊢
    rw [if_neg (by decide), if_pos rfl] at hsucc ⊢
    cases hu : unlink st.fs u.path with
    | error err => rw [hu] at hsucc; simp at hsucc
    | ok fs' =>
        exact manifestFind_filter_ne st.manifestCache u.path
  · intro mc files hn
    simp only [initializeManifestCache, List.map_map]
    simpa [Function.comp] using hn

/-- Witness for `manifestCache_invariant`: a successful create writes the
hash of the new content into the cache, and a successful delete of a
present path leaves the unique-path property intact. -/
theorem manifestCache_invariant_witness :
    manifestFind ((applyUpdate ⟨[], ⟨[], []⟩⟩
        ⟨"create", "a.md", "x"⟩).2).manifestCache "a.md"
      = some (hashContent "x") ∧
    (((applyUpdate ⟨[⟨"a.md", "h1"⟩], ⟨[("a.md", "x")], []⟩⟩
        ⟨"delete", "a.md", ""⟩).2).manifestCache.map ManifestEntry.path).Nodup :=
  ⟨manifestCache_invariant.2.1 ⟨[], ⟨[], []⟩⟩ ⟨"create", "a.md", "x"⟩
      (by decide) (by decide),
   manifestCache_invariant.1 ⟨[⟨"a.md", "h1"⟩], ⟨[("a.md", "x")], []⟩⟩
      ⟨"delete", "a.md", ""⟩ (by decide)⟩

/-! ### C10 — duplicate client-manifest entries -/

theorem mapInsert_keys_mem {α : Type} (m : List (String × α)) (k : String) (v : α)
    (h : k ∈ m.map Prod.fst) :
    (mapInsert m k v).map Prod.fst = m.map Prod.fst := by
  induction m with
  | nil => simp at h
  | cons hd tl ih =>
      obtain ⟨k', v'⟩ := hd
      by_cases hk : k' = k
      · simp [mapInsert, hk]
      · have hmem : k ∈ tl.map Prod.fst := by
          simp only [List.map_cons, List.mem_cons] at h
          rcases h with h1 | h1
          · exact absurd h1.symm hk
          · exact h1
        simp [mapInsert, hk, ih hmem]

theorem mapInsert_keys_nodup {α : Type} (m : List (String × α)) (k : String)
    (v : α) (h : (m.map Prod.fst).Nodup) :
    ((mapInsert m k v).map Prod.fst).Nodup := by
  by_cases hk : k ∈ m.map Prod.fst
  · rw [mapInsert_keys_mem m k v hk]
    exact h
  · rw [mapInsert_fresh m k v hk, List.map_append]
    exact h.append (List.nodup_singleton k) (List.disjoint_singleton.mpr hk)

theorem toMap_keys_nodup (m : Manifest) : ((toMap m).map Prod.fst).Nodup := by
  suffices h : ∀ (l : Manifest) (acc : List (String × String)),
      (acc.map Prod.fst).Nodup →
      ((l.foldl (fun a e => mapInsert a e.path e.hash) acc).map Prod.fst).Nodup by
    simpa [toMap] using h m [] (by simp)
  intro l
  induction l with
  | nil => intro acc hacc; simpa using hacc
  | cons e rest ih =>
      intro acc hacc
      exact ih _ (mapInsert_keys_nodup acc e.path e.hash hacc)

theorem manifestFind_append (a b : Manifest) (p : String) :
    manifestFind (a ++ b) p
      = match manifestFind a p with
        | some x => some x
        | none => manifestFind b p := by
  induction a with
  | nil => rfl
  | cons e rest ih =>
      by_cases hp : e.path = p
      · simp [manifestFind, hp]
      · simp [manifestFind, hp, ih]

theorem toMap_go_get (p : String) :
    ∀ (l : Manifest) (acc : List (String × String)),
      mapGet (l.foldl (fun a e => mapInsert a e.path e.hash) acc) p
        = match manifestFind l.reverse p with
          | some x => some x
          | none => mapGet acc p := by
  intro l
  induction l with
  | nil => intro acc; rfl
  | cons e rest ih =>
      intro acc
      rw [List.foldl_cons, ih, List.reverse_cons, manifestFind_append]
      cases hf : manifestFind rest.reverse p with
      | some x => rfl
      | none =>
          rw [mapGet_mapInsert]
          by_cases hp : e.path = p
          · simp [manifestFind, hp]
          · have hp' : ¬p = e.path := fun hh => hp hh.symm
            simp [manifestFind, hp, hp']

theorem mapGet_toMap (C : Manifest) (p : String) :
    mapGet (toMap C) p = manifestFind C.reverse p := by
  unfold toMap
  rw [toMap_go_get p C []]
  cases manifestFind C.reverse p <;> rfl

theorem dedupByPath_pairs (C : Manifest) :
    (dedupByPath C).map (fun e => (e.path, e.hash)) = toMap C := by
  unfold dedupByPath
  rw [List.map_map]
  have hcomp : ((fun e : ManifestEntry => (e.path, e.hash)) ∘
      fun pr : String × String => (⟨pr.1, pr.2⟩ : ManifestEntry)) = id :=
    funext fun pr => rfl
  rw [hcomp, List.map_id]

theorem dedupByPath_keys (C : Manifest) :
    (dedupByPath C).map ManifestEntry.path = (toMap C).map Prod.fst := by
  simp [dedupByPath, List.map_map, Function.comp]

theorem toMap_dedupByPath (C : Manifest) : toMap (dedupByPath C) = toMap C := by
  rw [toMap_eq_pairs (dedupByPath C)
        (by rw [dedupByPath_keys]; exact toMap_keys_nodup C),
      dedupByPath_pairs]

theorem getPermittedChanges_dedup (S C : Manifest) :
    getPermittedChanges S C = getPermittedChanges S (dedupByPath C) := by
  simp only [getPermittedChanges, toMap_dedupByPath]

theorem dedupByPath_find (C : Manifest) (p : String) :
    manifestFind (dedupByPath C) p = manifestFind C.reverse p := by
  rw [← mapGet_pairs, dedupByPath_pairs, mapGet_toMap]

theorem filterMap_count_le_one (m : List (String × String))
    (f : String × String → Option PermittedChange) (p : String)
    (hkeys : (m.map Prod.fst).Nodup)
    (hf : ∀ pr ch, f pr = some ch → ch.path = pr.1) :
    ((m.filterMap f).filter (fun ch => ch.path = p)).length ≤ 1 := by
  induction m with
  | nil => simp
  | cons pr rest ih =>
      simp only [List.map_cons, List.nodup_cons] at hkeys
      rw [List.filterMap_cons]
      cases hfp : f pr with
      | none => exact ih hkeys.2
      | some ch =>
          rw [List.filter_cons]
          by_cases hchp : ch.path = p
          · have hp1 : pr.1 = p := (hf pr ch hfp).symm.trans hchp
            have hfilter :
                (rest.filterMap f).filter (fun ch => ch.path = p) = [] := by
              rw [List.filter_eq_nil_iff]
              intro ch' hch'
              obtain ⟨pr', hpr', hfpr'⟩ := List.mem_filterMap.mp hch'
              have hpath' : ch'.path = pr'.1 := hf pr' ch' hfpr'
              simp only [decide_eq_true_eq]
              intro hpe
              apply hkeys.1
              rw [hp1, ← hpe, hpath']
              exact List.mem_map_of_mem Prod.fst hpr'
            simp [hchp, hfilter]
          · simpa [hchp] using ih hkeys.2

theorem getPermittedChanges_once (S C : Manifest) (p : String) :
    ((getPermittedChanges S C).filter (fun ch => ch.path = p)).length ≤ 1 := by
  have hf1 : ∀ (pr : String × String) (ch : PermittedChange),
      (if jsTruthy (mapGet (toMap S) pr.1) then
        if mapGet (toMap S) pr.1 ≠ some pr.2 then
          some (⟨ChangeType.update, pr.1⟩ : PermittedChange)
        else none
      else some ⟨ChangeType.create, pr.1⟩) = some ch → ch.path = pr.1 := by
    intro pr ch h
    by_cases ht : jsTruthy (mapGet (toMap S) pr.1)
    · rw [if_pos ht] at h
      by_cases hne : mapGet (toMap S) pr.1 ≠ some pr.2
      · rw [if_pos hne] at h
        cases h
        rfl
      · rw [if_neg hne] at h
        exact Option.noConfusion h
    · rw [if_neg ht] at h
      cases h
      rfl
  have hf2 : ∀ (pr : String × String) (ch : PermittedChange),
      (if mapHas (toMap C) pr.1 then none
       else some (⟨ChangeType.delete, pr.1⟩ : PermittedChange)) = some ch →
      ch.path = pr.1 ∧ mapHas (toMap C) pr.1 = false := by
    intro pr ch h
    by_cases hm : mapHas (toMap C) pr.1
    · rw [if_pos hm] at h
      exact Option.noConfusion h
    · rw [if_neg hm] at h
      injection h with h2
      refine ⟨?_, by simpa using hm⟩
      rw [← h2]
  simp only [getPermittedChanges]
  rw [List.filter_append, List.length_append]
  have h1 := filterMap_count_le_one (toMap C)
      (fun entry => if jsTruthy (mapGet (toMap S) entry.1) then
          if mapGet (toMap S) entry.1 ≠ some entry.2 then
            some (⟨ChangeType.update, entry.1⟩ : PermittedChange)
          else none
        else some ⟨ChangeType.create, entry.1⟩)
      p (toMap_keys_nodup C) hf1
  have h2 := filterMap_count_le_one (toMap S)
      (fun entry => if mapHas (toMap C) entry.1 then none
        else some (⟨ChangeType.delete, entry.1⟩ : PermittedChange))
      p (toMap_keys_nodup S) (fun pr ch h => (hf2 pr ch h).1)
  by_cases hm : mapHas (toMap C) p
  · have hr : ((toMap S).filterMap
        (fun entry => if mapHas (toMap C) entry.1 then none
          else some (⟨ChangeType.delete, entry.1⟩ : PermittedChange))).filter
        (fun ch => ch.path = p) = [] := by
      rw [List.filter_eq_nil_iff]
      intro ch hch
      obtain ⟨pr, hpr, hfp⟩ := List.mem_filterMap.mp hch
      obtain ⟨hpath, hhas⟩ := hf2 pr ch hfp
      simp only [decide_eq_true_eq]
      intro hpe
      rw [hpath] at hpe
      rw [hpe] at hhas
      simp [hhas] at hm
    rw [hr]
    simpa using h1
  · have hl : ((toMap C).filterMap
        (fun entry => if jsTruthy (mapGet (toMap S) entry.1) then
            if mapGet (toMap S) entry.1 ≠ some entry.2 then
              some (⟨ChangeType.update, entry.1⟩ : PermittedChange)
            else none
          else some ⟨ChangeType.create, entry.1⟩)).filter
        (fun ch => ch.path = p) = [] := by
      rw [List.filter_eq_nil_iff]
      intro ch hch
      obtain ⟨pr, hpr, hfp⟩ := List.mem_filterMap.mp hch
      have hpath := hf1 pr ch hfp
      simp only [decide_eq_true_eq]
      intro hpe
      rw [hpath] at hpe
      apply hm
      rw [← hpe]
      simp only [mapHas, List.any_eq_true, decide_eq_true_eq]
      exact ⟨pr, hpr, rfl⟩
    rw [hl]
    simpa using h2

/-- C10: when the client manifest lists the same path more than once, the
diff behaves as if the client manifest were first deduplicated by path
(one entry per path, carrying the last occurrence's fingerprint —
`dedupByPath`, whose entry for each path is proved equal to the last
occurrence in the client list), and at most one change is emitted per
path. -/
theorem getPermittedChanges_duplicates (S C : Manifest) :
    getPermittedChanges S C = getPermittedChanges S (dedupByPath C) ∧
    (∀ p, manifestFind (dedupByPath C) p = manifestFind C.reverse p) ∧
    ∀ p, ((getPermittedChanges S C).filter (fun ch => ch.path = p)).length ≤ 1 :=
  ⟨getPermittedChanges_dedup S C,
   fun p => dedupByPath_find C p,
   fun p => getPermittedChanges_once S C p⟩

end QuartzUpdater
